import Mathlib

/-!
Verification of `src/scripts/clear-cache.py` (the Cache-Field Stripper).

The script is:

```python
sessions_dir = Path("~/temp/otui/sessions")
for session_file in sessions_dir.glob("*.json"):
    with open(session_file, 'r') as f:
        data = json.load(f)
    if 'messages' in data:
        for msg in data['messages']:
            if 'rendered' in msg:
                del msg['rendered']
        with open(session_file, 'w') as f:
            json.dump(data, f, indent=2)
print("✅ Cache cleared")
```

We embed the JSON data model, the per-record mutation, the per-file
read/strip/write step, and the directory-level run.  Python dictionaries
are modelled as association lists (insertion-ordered, duplicate-free in
any value produced by `json.load`); `del` removes the (unique) binding of
a key; value assignment by mutation of `data['messages']`'s elements is
modelled by replacing the binding of `"messages"`.  Conditions the spec
declares undefined (record or entry not a mapping, `messages` not a
sequence) are modelled as `none` (a crash aborts the run before any
further write).
-/

namespace ClearCache

/-- JSON values as produced by Python's `json.load`: null, booleans,
numbers (integral numbers suffice for this development), strings, arrays,
and objects as insertion-ordered association lists. -/
inductive Json where
  | null
  | bool (b : Bool)
  | num (n : Int)
  | str (s : String)
  | arr (elements : List Json)
  | obj (fields : List (String × Json))

/-- Python `'k' in data` on a dict: does the association list bind `k`? -/
def hasKey : List (String × Json) → String → Bool
  | [], _ => false
  | kv :: rest, k => if kv.1 = k then true else hasKey rest k

/-- Python `data[k]` on a dict: the value of the first (in a real dict,
only) binding of `k`. -/
def lookupKey : List (String × Json) → String → Option Json
  | [], _ => none
  | kv :: rest, k => if kv.1 = k then some kv.2 else lookupKey rest k

/-- Python `del data[k]` on a dict: remove the (unique) binding of `k`;
on an association list this removes the first binding. -/
def eraseKey : List (String × Json) → String → List (String × Json)
  | [], _ => []
  | kv :: rest, k => if kv.1 = k then rest else kv :: eraseKey rest k

/-- Replacement of the value bound to `k` (first binding), modelling the
in-place mutation of the list object stored under `data['messages']`. -/
def updateKey : List (String × Json) → String → Json → List (String × Json)
  | [], _, _ => []
  | kv :: rest, k, v =>
      if kv.1 = k then (kv.1, v) :: rest else kv :: updateKey rest k v

/-- Lines 16-17 of the script, for one message entry:
`if 'rendered' in msg: del msg['rendered']`.  A non-mapping entry is
undefined behaviour per spec section 7 (Python raises `TypeError` on the
`del`), modelled as `none`. -/
def stripEntry : Json → Option Json
  | .obj efields =>
      some (.obj (if hasKey efields "rendered" then eraseKey efields "rendered"
                  else efields))
  | _ => none

/-- Lines 15-17 of the script: the `for msg in data['messages']` loop,
stripping every entry in order; a failing entry aborts the run. -/
def stripAll : List Json → Option (List Json)
  | [] => some []
  | m :: ms =>
      match stripEntry m with
      | none => none
      | some m2 =>
          match stripAll ms with
          | none => none
          | some ms2 => some (m2 :: ms2)

/-- Lines 14-19 of the script applied to one parsed record `data`:
`some none` means the run continues without rewriting the file (no
`messages` field), `some (some d)` means the file is rewritten with the
mutated record `d`, and `none` means a condition the spec declares
undefined (record not a mapping, `messages` not a sequence, entry not a
mapping), which crashes the script before this file is written. -/
def processFile : Json → Option (Option Json)
  | .obj fields =>
      match lookupKey fields "messages" with
      | none => some none
      | some (.arr msgs) =>
          match stripAll msgs with
          | none => none
          | some msgs2 =>
              some (some (.obj (updateKey fields "messages" (.arr msgs2))))
      | some _ => none
  | _ => none

/-- A run of `n` spaces, for the serializer's indentation. -/
def spaces (n : Nat) : String :=
  String.mk (List.replicate n ' ')

/-- Lower-case hexadecimal digit, as used by Python's `\uXXXX` escapes. -/
def hexDigit (n : Nat) : Char :=
  if n < 10 then Char.ofNat (48 + n) else Char.ofNat (87 + n)

/-- Four lower-case hexadecimal digits. -/
def hex4 (n : Nat) : String :=
  String.mk [hexDigit (n / 4096 % 16), hexDigit (n / 256 % 16),
             hexDigit (n / 16 % 16), hexDigit (n % 16)]

/-- One character of Python's `json` ASCII string encoder
(`ensure_ascii=True`, the `json.dump` default): the seven short escapes,
printable ASCII verbatim, everything else as `\uXXXX` (with a surrogate
pair beyond the basic multilingual plane). -/
def escapeChar (c : Char) : String :=
  if c = '\\' then "\\\\"
  else if c = '"' then "\\\""
  else if c = '\n' then "\\n"
  else if c = '\r' then "\\r"
  else if c = '\t' then "\\t"
  else if c.toNat = 8 then "\\b"
  else if c.toNat = 12 then "\\f"
  else if 32 ≤ c.toNat ∧ c.toNat ≤ 126 then String.singleton c
  else if c.toNat < 65536 then "\\u" ++ hex4 c.toNat
  else
    "\\u" ++ hex4 (55296 + (c.toNat - 65536) / 1024) ++
    "\\u" ++ hex4 (56320 + (c.toNat - 65536) % 1024)

/-- Python's `json` string encoder: a double-quoted, escaped string. -/
def encodeString (s : String) : String :=
  "\"" ++ String.join (s.data.map escapeChar) ++ "\""

mutual

/-- Python's `json.dump(..., indent=2)` serialization of a value placed at
indentation level `ind`: containers open on the current line, put each
item on its own line indented two further spaces, and close at `ind`;
the separators are `,` and `: ` (the defaults when `indent` is given). -/
def render : Json → Nat → String
  | .null, _ => "null"
  | .bool true, _ => "true"
  | .bool false, _ => "false"
  | .num n, _ => toString n
  | .str s, _ => encodeString s
  | .arr [], _ => "[]"
  | .arr (x :: xs), ind =>
      "[\n" ++ renderItems x xs (ind + 2) ++ "\n" ++ spaces ind ++ "]"
  | .obj [], _ => "\x7b\x7d"
  | .obj (kv :: kvs), ind =>
      "\x7b\n" ++ renderFields kv kvs (ind + 2) ++ "\n" ++ spaces ind ++ "\x7d"
termination_by j _ => sizeOf j

/-- The comma-and-newline separated items of a non-empty array. -/
def renderItems : Json → List Json → Nat → String
  | x, [], ind => spaces ind ++ render x ind
  | x, y :: ys, ind =>
      spaces ind ++ render x ind ++ ",\n" ++ renderItems y ys ind
termination_by x xs _ => sizeOf x + sizeOf xs

/-- The comma-and-newline separated `"key": value` fields of a non-empty
object. -/
def renderFields : (String × Json) → List (String × Json) → Nat → String
  | (k, v), [], ind => spaces ind ++ encodeString k ++ ": " ++ render v ind
  | (k, v), kv :: kvs, ind =>
      spaces ind ++ encodeString k ++ ": " ++ render v ind ++ ",\n" ++
      renderFields kv kvs ind
termination_by kv kvs _ => sizeOf kv + sizeOf kvs

end

/-- Line 19 of the script: the bytes `json.dump(data, f, indent=2)` writes
for the whole record (top level at indentation 0, no trailing newline). -/
def dumpJson (d : Json) : String :=
  render d 0

/-- One file of the sessions directory matching `*.json`: its path, its
current bytes on disk, and the record those bytes parse to (`json.load`).
Records are created by an external process; the parse invariant is that
`record` is what `json.load` returns on `contents`. -/
structure SessionFile where
  path : String
  contents : String
  record : Json

/-- Lines 12-19 of the script for one file: read and parse, strip, and
rewrite the file in place when (and only when) the record has a
`messages` field; `none` models the crash of an undefined condition. -/
def processSessionFile (f : SessionFile) : Option SessionFile :=
  match processFile f.record with
  | none => none
  | some none => some f
  | some (some d) => some ⟨f.path, dumpJson d, d⟩

/-- Lines 11-19 of the script: the `for session_file in
sessions_dir.glob("*.json")` loop over all matching files, in order; a
crash on any file aborts the whole run. -/
def processDir : List SessionFile → Option (List SessionFile)
  | [] => some []
  | f :: fs =>
      match processSessionFile f with
      | none => none
      | some f2 =>
          match processDir fs with
          | none => none
          | some fs2 => some (f2 :: fs2)

/-- The whole script: process every matching file, then (line 20, outside
the loop) print the single confirmation line; a crash aborts before the
print. -/
def runScript (files : List SessionFile) :
    Option (List SessionFile × String) :=
  match processDir files with
  | none => none
  | some files2 => some (files2, "✅ Cache cleared")

/-- Python dictionaries cannot bind a key twice; every object `json.load`
produces therefore has pairwise-distinct keys.  This is the
representation invariant of a message entry used where a proof needs
uniqueness of the `rendered` binding. -/
def entryWF : Json → Prop
  | .obj efields => (efields.map Prod.fst).Nodup
  | _ => True

instance entryWF_dec : (m : Json) → Decidable (entryWF m)
  | .null => .isTrue trivial
  | .bool _ => .isTrue trivial
  | .num _ => .isTrue trivial
  | .str _ => .isTrue trivial
  | .arr _ => .isTrue trivial
  | .obj efields => inferInstanceAs (Decidable ((efields.map Prod.fst).Nodup))

/-- The `messages` list of a record, when the record is an object whose
`messages` field is an array; `[]` otherwise. -/
def msgsOf : Json → List Json
  | .obj fields =>
      match lookupKey fields "messages" with
      | some (.arr msgs) => msgs
      | _ => []
  | _ => []

/-- The representation invariant of a parsed record needed for
idempotence: every entry of its `messages` list has pairwise-distinct
keys, as Python dictionaries do. -/
def recordWF (d : Json) : Prop :=
  ∀ m ∈ msgsOf d, entryWF m

instance recordWF_dec (d : Json) : Decidable (recordWF d) :=
  inferInstanceAs (Decidable (∀ m ∈ msgsOf d, entryWF m))

theorem hasKey_eq_false_of_not_mem (fields : List (String × Json))
    (k : String) (h : k ∉ fields.map Prod.fst) : hasKey fields k = false := by
  induction fields with
  | nil => rfl
  | cons kv rest ih =>
      simp only [List.map_cons, List.mem_cons, not_or] at h
      rw [hasKey, if_neg (fun hk => h.1 hk.symm)]
      exact ih h.2

theorem hasKey_of_lookupKey_some (fields : List (String × Json))
    (k : String) (v : Json) (h : lookupKey fields k = some v) :
    hasKey fields k = true := by
  induction fields with
  | nil => exact absurd h (by simp [lookupKey])
  | cons kv rest ih =>
      by_cases hk : kv.1 = k
      · rw [hasKey, if_pos hk]
      · rw [lookupKey, if_neg hk] at h
        rw [hasKey, if_neg hk]
        exact ih h

theorem lookupKey_eq_none_of_hasKey_false (fields : List (String × Json))
    (k : String) (h : hasKey fields k = false) : lookupKey fields k = none := by
  induction fields with
  | nil => rfl
  | cons kv rest ih =>
      rw [hasKey] at h
      by_cases hk : kv.1 = k
      · rw [if_pos hk] at h
        exact absurd h (by simp)
      · rw [if_neg hk] at h
        rw [lookupKey, if_neg hk]
        exact ih h

theorem lookupKey_eraseKey_ne (fields : List (String × Json))
    (k j : String) (h : j ≠ k) :
    lookupKey (eraseKey fields k) j = lookupKey fields j := by
  induction fields with
  | nil => rfl
  | cons kv rest ih =>
      by_cases hk : kv.1 = k
      · rw [eraseKey, if_pos hk, lookupKey,
            if_neg (fun hj : kv.1 = j => h (hj.symm.trans hk))]
      · rw [eraseKey, if_neg hk, lookupKey, lookupKey, ih]

theorem hasKey_eraseKey_self (fields : List (String × Json)) (k : String)
    (h : (fields.map Prod.fst).Nodup) :
    hasKey (eraseKey fields k) k = false := by
  induction fields with
  | nil => rfl
  | cons kv rest ih =>
      simp only [List.map_cons, List.nodup_cons] at h
      by_cases hk : kv.1 = k
      · rw [eraseKey, if_pos hk]
        exact hasKey_eq_false_of_not_mem rest k (hk ▸ h.1)
      · rw [eraseKey, if_neg hk, hasKey, if_neg hk]
        exact ih h.2

theorem lookupKey_updateKey_self (fields : List (String × Json))
    (k : String) (v : Json) (h : hasKey fields k = true) :
    lookupKey (updateKey fields k v) k = some v := by
  induction fields with
  | nil => exact absurd h (by simp [hasKey])
  | cons kv rest ih =>
      by_cases hk : kv.1 = k
      · rw [updateKey, if_pos hk, lookupKey, if_pos hk]
      · rw [hasKey, if_neg hk] at h
        rw [updateKey, if_neg hk, lookupKey, if_neg hk]
        exact ih h

theorem lookupKey_updateKey_ne (fields : List (String × Json))
    (k : String) (v : Json) (j : String) (h : j ≠ k) :
    lookupKey (updateKey fields k v) j = lookupKey fields j := by
  induction fields with
  | nil => rfl
  | cons kv rest ih =>
      by_cases hk : kv.1 = k
      · rw [updateKey, if_pos hk, lookupKey, lookupKey,
            if_neg (fun hj : kv.1 = j => h (hj.symm.trans hk)),
            if_neg (fun hj : kv.1 = j => h (hj.symm.trans hk))]
      · rw [updateKey, if_neg hk, lookupKey, lookupKey, ih]

theorem updateKey_updateKey (fields : List (String × Json))
    (k : String) (v : Json) :
    updateKey (updateKey fields k v) k v = updateKey fields k v := by
  induction fields with
  | nil => rfl
  | cons kv rest ih =>
      by_cases hk : kv.1 = k
      · rw [updateKey, if_pos hk, updateKey, if_pos hk]
      · rw [updateKey, if_neg hk, updateKey, if_neg hk, ih]

theorem stripEntry_of_hasKey_false (efields : List (String × Json))
    (h : hasKey efields "rendered" = false) :
    stripEntry (.obj efields) = some (.obj efields) := by
  rw [stripEntry, if_neg (by simp [h])]

theorem stripEntry_of_hasKey_true (efields : List (String × Json))
    (h : hasKey efields "rendered" = true) :
    stripEntry (.obj efields) = some (.obj (eraseKey efields "rendered")) := by
  rw [stripEntry, if_pos h]

/-- Stripping an entry once makes a second strip a no-op, provided the
entry's keys are duplicate-free (as a Python dict's always are). -/
theorem stripEntry_idem (m m2 : Json) (hwf : entryWF m)
    (h : stripEntry m = some m2) : stripEntry m2 = some m2 := by
  cases m with
  | obj efields =>
      rw [stripEntry] at h
      have h2 : m2 = .obj (if hasKey efields "rendered" then
          eraseKey efields "rendered" else efields) := by
        exact (Option.some.inj h).symm
      subst h2
      by_cases hr : hasKey efields "rendered" = true
      · rw [if_pos hr]
        exact stripEntry_of_hasKey_false _ (hasKey_eraseKey_self efields _ hwf)
      · rw [if_neg hr]
        exact stripEntry_of_hasKey_false _ (Bool.eq_false_iff.mpr hr)
  | null => exact Option.noConfusion h
  | bool b => exact Option.noConfusion h
  | num n => exact Option.noConfusion h
  | str s => exact Option.noConfusion h
  | arr xs => exact Option.noConfusion h

theorem stripAll_length (msgs msgs2 : List Json)
    (h : stripAll msgs = some msgs2) : msgs2.length = msgs.length := by
  induction msgs generalizing msgs2 with
  | nil =>
      rw [stripAll] at h
      rw [← Option.some.inj h]
  | cons m ms ih =>
      rw [stripAll] at h
      cases he : stripEntry m with
      | none => rw [he] at h; exact absurd h (by simp)
      | some m2 =>
          rw [he] at h
          cases hs : stripAll ms with
          | none => rw [hs] at h; exact absurd h (by simp)
          | some ms2 =>
              rw [hs] at h
              rw [← Option.some.inj h]
              simp [ih ms2 hs]

theorem stripAll_get (msgs msgs2 : List Json) (h : stripAll msgs = some msgs2)
    (i : Nat) (hi : i < msgs.length) (hi2 : i < msgs2.length) :
    stripEntry (msgs.get ⟨i, hi⟩) = some (msgs2.get ⟨i, hi2⟩) := by
  induction msgs generalizing msgs2 i with
  | nil => exact absurd hi (by simp)
  | cons m ms ih =>
      rw [stripAll] at h
      cases he : stripEntry m with
      | none => rw [he] at h; exact absurd h (by simp)
      | some m2 =>
          rw [he] at h
          cases hs : stripAll ms with
          | none => rw [hs] at h; exact absurd h (by simp)
          | some ms2 =>
              rw [hs] at h
              have h2 : msgs2 = m2 :: ms2 := (Option.some.inj h).symm
              subst h2
              cases i with
              | zero => simpa using he
              | succ n =>
                  have hn : n < ms.length := Nat.lt_of_succ_lt_succ hi
                  have hn2 : n < ms2.length := Nat.lt_of_succ_lt_succ hi2
                  simpa using ih ms2 hs n hn hn2

theorem stripAll_idem (msgs msgs2 : List Json)
    (hwf : ∀ m ∈ msgs, entryWF m) (h : stripAll msgs = some msgs2) :
    stripAll msgs2 = some msgs2 := by
  induction msgs generalizing msgs2 with
  | nil =>
      rw [stripAll] at h
      rw [← Option.some.inj h, stripAll]
  | cons m ms ih =>
      rw [stripAll] at h
      cases he : stripEntry m with
      | none => rw [he] at h; exact absurd h (by simp)
      | some m2 =>
          rw [he] at h
          cases hs : stripAll ms with
          | none => rw [hs] at h; exact absurd h (by simp)
          | some ms2 =>
              rw [hs] at h
              have h2 : msgs2 = m2 :: ms2 := (Option.some.inj h).symm
              subst h2
              rw [stripAll,
                  stripEntry_idem m m2 (hwf m (List.mem_cons_self m ms)) he,
                  ih ms2 (fun x hx => hwf x (List.mem_cons_of_mem m hx)) hs]

/-- Inversion of a successful, file-rewriting run of lines 14-19 on a
record: the record is an object whose `messages` field is an array, every
entry strips successfully, and the rewritten record is the original with
the `messages` binding replaced by the stripped list. -/
theorem processFile_obj_inv (fields : List (String × Json)) (out : Json)
    (h : processFile (.obj fields) = some (some out)) :
    ∃ msgs msgs2, lookupKey fields "messages" = some (.arr msgs) ∧
      stripAll msgs = some msgs2 ∧
      out = .obj (updateKey fields "messages" (.arr msgs2)) := by
  simp only [processFile] at h
  cases hm : lookupKey fields "messages" with
  | none =>
      simp only [hm] at h
      exact Option.noConfusion (Option.some.inj h)
  | some v =>
      simp only [hm] at h
      cases v with
      | arr msgs =>
          cases hs : stripAll msgs with
          | none =>
              simp only [hs] at h
              exact Option.noConfusion h
          | some msgs2 =>
              simp only [hs, Option.some.injEq] at h
              exact ⟨msgs, msgs2, rfl, hs, h.symm⟩
      | null => simp at h
      | bool b => simp at h
      | num n => simp at h
      | str s => simp at h
      | obj fs => simp at h

/-- Forward direction: a record whose `messages` field is an array that
strips successfully is rewritten with the stripped list. -/
theorem processFile_obj_eq (fields : List (String × Json))
    (msgs msgs2 : List Json)
    (hm : lookupKey fields "messages" = some (.arr msgs))
    (hs : stripAll msgs = some msgs2) :
    processFile (.obj fields) =
      some (some (.obj (updateKey fields "messages" (.arr msgs2)))) := by
  simp only [processFile, hm, hs]

/-- A record without a `messages` field is left alone: the run continues
without rewriting the file. -/
theorem processFile_no_messages (fields : List (String × Json))
    (h : hasKey fields "messages" = false) :
    processFile (.obj fields) = some none := by
  rw [processFile, lookupKey_eq_none_of_hasKey_false fields _ h]

/-- Processing a record a second time reproduces it exactly, given the
Python-dict key-uniqueness invariant of its entries. -/
theorem processFile_idem (data d : Json) (hwf : recordWF data)
    (h : processFile data = some (some d)) : processFile d = some (some d) := by
  cases data with
  | obj fields =>
      obtain ⟨msgs, msgs2, hm, hs, hout⟩ := processFile_obj_inv fields d h
      have hwf2 : ∀ m ∈ msgs, entryWF m := by
        have hmo : msgsOf (.obj fields) = msgs := by simp [msgsOf, hm]
        rw [recordWF, hmo] at hwf
        exact hwf
      subst hout
      have hk : hasKey fields "messages" = true :=
        hasKey_of_lookupKey_some fields _ _ hm
      have hm2 : lookupKey (updateKey fields "messages" (.arr msgs2))
          "messages" = some (.arr msgs2) :=
        lookupKey_updateKey_self fields _ _ hk
      rw [processFile_obj_eq _ msgs2 msgs2 hm2
            (stripAll_idem msgs msgs2 hwf2 hs),
          updateKey_updateKey]
  | null => exact Option.noConfusion h
  | bool b => exact Option.noConfusion h
  | num n => exact Option.noConfusion h
  | str s => exact Option.noConfusion h
  | arr xs => exact Option.noConfusion h

theorem lookupKey_isSome_of_hasKey (fields : List (String × Json))
    (k : String) (h : hasKey fields k = true) :
    ∃ v, lookupKey fields k = some v := by
  induction fields with
  | nil => exact absurd h (by rw [hasKey]; simp)
  | cons kv rest ih =>
      by_cases hk : kv.1 = k
      · exact ⟨kv.2, by rw [lookupKey, if_pos hk]⟩
      · rw [hasKey, if_neg hk] at h
        obtain ⟨v, hv⟩ := ih h
        exact ⟨v, by rw [lookupKey, if_neg hk, hv]⟩

/-- A record that the run leaves alone (continues without rewriting) is
exactly one without a `messages` field. -/
theorem processFile_some_none_inv (fields : List (String × Json))
    (h : processFile (.obj fields) = some none) :
    hasKey fields "messages" = false := by
  by_cases hk : hasKey fields "messages" = true
  · obtain ⟨v, hv⟩ := lookupKey_isSome_of_hasKey fields _ hk
    simp only [processFile, hv] at h
    cases v with
    | arr msgs =>
        cases hs : stripAll msgs with
        | none =>
            simp only [hs] at h
            exact Option.noConfusion h
        | some msgs2 =>
            simp only [hs, Option.some.injEq] at h
            exact Option.noConfusion h
    | null => exact Option.noConfusion h
    | bool b => exact Option.noConfusion h
    | num n => exact Option.noConfusion h
    | str s => exact Option.noConfusion h
    | obj fs => exact Option.noConfusion h
  · exact Bool.eq_false_iff.mpr hk

/-- Stripping never changes the value of an entry field other than
`rendered` (in particular a `rendered` key nested deeper inside such a
value is untouched, the whole value being kept identical). -/
theorem stripEntry_lookup_ne (efields efields2 : List (String × Json))
    (h : stripEntry (.obj efields) = some (.obj efields2))
    (k : String) (hk : k ≠ "rendered") :
    lookupKey efields2 k = lookupKey efields k := by
  rw [stripEntry] at h
  have h2 := Json.obj.inj (Option.some.inj h)
  rw [← h2]
  by_cases hr : hasKey efields "rendered" = true
  · rw [if_pos hr]
    exact lookupKey_eraseKey_ne efields _ k hk
  · rw [if_neg hr]

/-- The per-file step keeps the file's path. -/
theorem processSessionFile_path (f f2 : SessionFile)
    (h : processSessionFile f = some f2) : f2.path = f.path := by
  rw [processSessionFile] at h
  cases hp : processFile f.record with
  | none =>
      rw [hp] at h
      exact Option.noConfusion h
  | some w =>
      cases w with
      | none =>
          rw [hp] at h
          rw [← Option.some.inj h]
      | some d =>
          rw [hp] at h
          rw [← Option.some.inj h]

/-- The per-file step on one file, repeated, is a no-op the second time
(given the Python-dict key-uniqueness invariant). -/
theorem processSessionFile_idem (f f2 : SessionFile)
    (hwf : recordWF f.record) (h : processSessionFile f = some f2) :
    processSessionFile f2 = some f2 := by
  rw [processSessionFile] at h
  cases hp : processFile f.record with
  | none =>
      rw [hp] at h
      exact Option.noConfusion h
  | some w =>
      cases w with
      | none =>
          rw [hp] at h
          rw [← Option.some.inj h, processSessionFile, hp]
      | some d =>
          rw [hp] at h
          rw [← Option.some.inj h, processSessionFile]
          have hd : processFile d = some (some d) :=
            processFile_idem f.record d hwf hp
          rw [hd]

/-- The directory loop keeps the list of file paths: no file is created,
deleted, renamed or reordered; every write targets a path that was read. -/
theorem processDir_paths (files files2 : List SessionFile)
    (h : processDir files = some files2) :
    files2.map SessionFile.path = files.map SessionFile.path := by
  induction files generalizing files2 with
  | nil =>
      rw [processDir] at h
      rw [← Option.some.inj h]
  | cons f fs ih =>
      rw [processDir] at h
      cases hp : processSessionFile f with
      | none =>
          rw [hp] at h
          exact Option.noConfusion h
      | some f2 =>
          rw [hp] at h
          cases hd : processDir fs with
          | none =>
              rw [hd] at h
              exact Option.noConfusion h
          | some fs2 =>
              rw [hd] at h
              rw [← Option.some.inj h]
              simp only [List.map_cons]
              rw [processSessionFile_path f f2 hp, ih fs2 hd]

/-- The directory loop, repeated, is a no-op the second time. -/
theorem processDir_idem (files files2 : List SessionFile)
    (hwf : ∀ f ∈ files, recordWF f.record)
    (h : processDir files = some files2) :
    processDir files2 = some files2 := by
  induction files generalizing files2 with
  | nil =>
      rw [processDir] at h
      rw [← Option.some.inj h, processDir]
  | cons f fs ih =>
      rw [processDir] at h
      cases hp : processSessionFile f with
      | none =>
          rw [hp] at h
          exact Option.noConfusion h
      | some f2 =>
          rw [hp] at h
          cases hd : processDir fs with
          | none =>
              rw [hd] at h
              exact Option.noConfusion h
          | some fs2 =>
              rw [hd] at h
              rw [← Option.some.inj h, processDir,
                  processSessionFile_idem f f2 (hwf f (List.mem_cons_self f fs)) hp,
                  ih fs2 (fun x hx => hwf x (List.mem_cons_of_mem f hx)) hd]

/-- The message entry of the spec section 8 scenario `a.json`: a `text`
field and a cached `rendered` field. -/
def entryA : List (String × Json) :=
  [("text", .str "hi"), ("rendered", .str "<p>hi</p>")]

/-- The fields of the `a.json` record. -/
def fieldsA : List (String × Json) := [("messages", .arr [.obj entryA])]

/-- The `a.json` record, `\x7b"messages":[\x7b"text":"hi","rendered":"<p>hi</p>"\x7d]\x7d`. -/
def recordA : Json := .obj fieldsA

/-- The entry of `a.json` after stripping. -/
def entryS : List (String × Json) := [("text", .str "hi")]

/-- The fields of the stripped `a.json` record. -/
def fieldsS : List (String × Json) := [("messages", .arr [.obj entryS])]

/-- The stripped `a.json` record, `\x7b"messages":[\x7b"text":"hi"\x7d]\x7d`. -/
def strippedA : Json := .obj fieldsS

/-- The `a.json` file as found on disk before the run. -/
def fileA : SessionFile :=
  ⟨"a.json",
   "\x7b\"messages\": [\x7b\"text\": \"hi\", \"rendered\": \"<p>hi</p>\"\x7d]\x7d",
   recordA⟩

/-- The `a.json` file after the run: rewritten, indent-2 serialized. -/
def fileA2 : SessionFile := ⟨"a.json", dumpJson strippedA, strippedA⟩

/-- The fields of the spec section 8 scenario record `b.json`, which has
no `messages` field. -/
def fieldsB : List (String × Json) := [("other", .num 1)]

/-- The `b.json` record, `\x7b"other":1\x7d`. -/
def recordB : Json := .obj fieldsB

/-- The `b.json` file as found on disk. -/
def fileB : SessionFile := ⟨"b.json", "\x7b\"other\": 1\x7d", recordB⟩

/-- A two-file sessions directory holding both scenario files. -/
def dirAB : List SessionFile := [fileA, fileB]

/-- The same directory after one run: `a.json` rewritten, `b.json`
untouched. -/
def dirAB2 : List SessionFile := [fileA2, fileB]

/-- Inversion of a rewriting run relative to a known `messages` array:
the stripped list exists and the output record is the input with the
`messages` binding replaced by it (whose lookup then returns it). -/
theorem processFile_messages_inv (fields : List (String × Json))
    (msgs : List Json) (out : Json)
    (hrun : processFile (.obj fields) = some (some out))
    (hmsgs : lookupKey fields "messages" = some (.arr msgs)) :
    ∃ msgs2, stripAll msgs = some msgs2 ∧
      out = .obj (updateKey fields "messages" (.arr msgs2)) ∧
      lookupKey (updateKey fields "messages" (.arr msgs2)) "messages" =
        some (.arr msgs2) := by
  obtain ⟨msgs0, msgs2, hm0, hs, hout⟩ := processFile_obj_inv fields out hrun
  rw [hmsgs] at hm0
  obtain rfl : msgs0 = msgs := (Json.arr.inj (Option.some.inj hm0)).symm
  exact ⟨msgs2, hs, hout,
    lookupKey_updateKey_self fields _ _
      (hasKey_of_lookupKey_some fields _ _ hmsgs)⟩

/-- C7: when the directory contains no matching files, the run touches no
files and still prints the single completion message. -/
theorem claim_C7 : runScript [] = some ([], "✅ Cache cleared") := rfl

/-- C3: a session record without a `messages` field is left holding
exactly the same fields and values as before: the file is not touched at
all by the per-file step. -/
theorem claim_C3 (f : SessionFile) (fields : List (String × Json))
    (hf : f.record = .obj fields) (h : hasKey fields "messages" = false) :
    processSessionFile f = some f := by
  rw [processSessionFile, hf, processFile_no_messages fields h]

/-- Witness for C3 at the spec scenario file `b.json`. -/
theorem claim_C3_witness :
    fileB.record = Json.obj fieldsB ∧
    hasKey fieldsB "messages" = false ∧
    processSessionFile fileB = some fileB :=
  ⟨rfl, rfl, claim_C3 fileB fieldsB rfl rfl⟩

/-- C9: on a successful per-record step, the file is rewritten if and
only if the record has a `messages` field — rewritten even when no entry
had a `rendered` field, and never rewritten when `messages` is absent. -/
theorem claim_C9 (fields : List (String × Json)) (w : Option Json)
    (h : processFile (.obj fields) = some w) :
    (∃ d, w = some d) ↔ hasKey fields "messages" = true := by
  constructor
  · rintro ⟨d, rfl⟩
    obtain ⟨msgs, msgs2, hm, _, _⟩ := processFile_obj_inv fields d h
    exact hasKey_of_lookupKey_some fields _ _ hm
  · intro hk
    cases w with
    | some d => exact ⟨d, rfl⟩
    | none =>
        have hfalse := processFile_some_none_inv fields h
        rw [hk] at hfalse
        exact Bool.noConfusion hfalse

/-- Witness for C9 at the spec scenario record `a.json`. -/
theorem claim_C9_witness :
    processFile (Json.obj fieldsA) = some (some strippedA) ∧
    ((∃ d, (some strippedA : Option Json) = some d) ↔
      hasKey fieldsA "messages" = true) :=
  ⟨rfl, claim_C9 fieldsA (some strippedA) rfl⟩

/-- C8: the run creates and deletes no file: the list of file paths after
a successful run is exactly the list before it, and every rewrite targets
the very path that was read. -/
theorem claim_C8 (files files2 : List SessionFile)
    (h : processDir files = some files2) :
    files2.map SessionFile.path = files.map SessionFile.path :=
  processDir_paths files files2 h

/-- Witness for C8 at the two-file scenario directory. -/
theorem claim_C8_witness :
    processDir dirAB = some dirAB2 ∧
    dirAB2.map SessionFile.path = dirAB.map SessionFile.path :=
  ⟨rfl, claim_C8 dirAB dirAB2 rfl⟩

/-- C4: the stripper is idempotent: a second run over the directory state
a successful run produced reproduces that state exactly, bytes included
(the records satisfy the Python-dict key-uniqueness invariant). -/
theorem claim_C4 (files files2 : List SessionFile)
    (hwf : ∀ f ∈ files, recordWF f.record)
    (h : processDir files = some files2) :
    processDir files2 = some files2 :=
  processDir_idem files files2 hwf h

/-- Witness for C4 at the two-file scenario directory. -/
theorem claim_C4_witness :
    (∀ f ∈ dirAB, recordWF f.record) ∧
    processDir dirAB = some dirAB2 ∧
    processDir dirAB2 = some dirAB2 :=
  ⟨by decide, rfl, claim_C4 dirAB dirAB2 (by decide) rfl⟩

/-- C2 as frozen is false: it asserts every matching file is persisted
back, including files whose record has no `messages` field, but the
`json.dump` call sits inside `if 'messages' in data:`, so the scenario
record `b.json` = `\x7b"other":1\x7d` is never written back. -/
theorem claim_C2_counterexample :
    ¬ ∃ d : Json, processFile recordB = some (some d) := by
  rintro ⟨d, h⟩
  rw [show processFile recordB = some none from rfl] at h
  exact Option.noConfusion (Option.some.inj h)

/-- C2 amended: a matching file whose record has a `messages` field is,
on success, persisted back to the same path with the mutated record
serialized by the indent-2 dump, overwriting the prior contents; a file
whose record has no `messages` field is not rewritten at all. -/
theorem claim_C2_amended (f f2 : SessionFile) (fields : List (String × Json))
    (hf : f.record = .obj fields)
    (h : processSessionFile f = some f2) :
    (hasKey fields "messages" = true →
      ∃ d, processFile f.record = some (some d) ∧
        f2 = ⟨f.path, dumpJson d, d⟩) ∧
    (hasKey fields "messages" = false → f2 = f) := by
  rw [processSessionFile] at h
  cases hp : processFile f.record with
  | none =>
      rw [hp] at h
      exact Option.noConfusion h
  | some w =>
      cases w with
      | none =>
          simp only [hp] at h
          constructor
          · intro hk
            rw [hf] at hp
            rw [processFile_some_none_inv fields hp] at hk
            exact Bool.noConfusion hk
          · intro _
            rw [← Option.some.inj h]
      | some d =>
          simp only [hp] at h
          constructor
          · intro _
            exact ⟨d, rfl, (Option.some.inj h).symm⟩
          · intro hk
            rw [hf, processFile_no_messages fields hk] at hp
            exact Option.noConfusion (Option.some.inj hp)

/-- Witness for the amended C2 at the spec scenario file `a.json`. -/
theorem claim_C2_amended_witness :
    fileA.record = Json.obj fieldsA ∧
    processSessionFile fileA = some fileA2 ∧
    ((hasKey fieldsA "messages" = true →
        ∃ d, processFile fileA.record = some (some d) ∧
          fileA2 = ⟨fileA.path, dumpJson d, d⟩) ∧
      (hasKey fieldsA "messages" = false → fileA2 = fileA)) :=
  ⟨rfl, rfl, claim_C2_amended fileA fileA2 fieldsA rfl rfl⟩

/-- C1: a message entry that had a `rendered` field has, after the record
is processed and rewritten, no `rendered` field any more, while every one
of its other fields retains its original value (the entry keeping its
position in `messages`). -/
theorem claim_C1 (fields : List (String × Json)) (msgs : List Json)
    (out : Json)
    (hrun : processFile (.obj fields) = some (some out))
    (hmsgs : lookupKey fields "messages" = some (.arr msgs))
    (i : Nat) (hi : i < msgs.length) (efields : List (String × Json))
    (hentry : msgs.get ⟨i, hi⟩ = .obj efields)
    (hnodup : (efields.map Prod.fst).Nodup)
    (hrend : hasKey efields "rendered" = true) :
    ∃ outFields msgs2, ∃ (hi2 : i < msgs2.length), ∃ efields2,
      out = .obj outFields ∧
      lookupKey outFields "messages" = some (.arr msgs2) ∧
      msgs2.get ⟨i, hi2⟩ = .obj efields2 ∧
      hasKey efields2 "rendered" = false ∧
      ∀ k, k ≠ "rendered" → lookupKey efields2 k = lookupKey efields k := by
  obtain ⟨msgs2, hs, hout, hupd⟩ :=
    processFile_messages_inv fields msgs out hrun hmsgs
  have hi2 : i < msgs2.length := (stripAll_length msgs msgs2 hs) ▸ hi
  have hget := stripAll_get msgs msgs2 hs i hi hi2
  rw [hentry, stripEntry_of_hasKey_true efields hrend] at hget
  exact ⟨updateKey fields "messages" (.arr msgs2), msgs2, hi2,
    eraseKey efields "rendered", hout, hupd, (Option.some.inj hget).symm,
    hasKey_eraseKey_self efields _ hnodup,
    fun k hk => lookupKey_eraseKey_ne efields _ k hk⟩

/-- Witness for C1 at the spec scenario record `a.json`. -/
theorem claim_C1_witness :
    processFile (Json.obj fieldsA) = some (some strippedA) ∧
    lookupKey fieldsA "messages" = some (Json.arr [Json.obj entryA]) ∧
    [Json.obj entryA].get ⟨0, Nat.one_pos⟩ = Json.obj entryA ∧
    (entryA.map Prod.fst).Nodup ∧
    hasKey entryA "rendered" = true ∧
    (∃ outFields msgs2, ∃ (hi2 : 0 < msgs2.length), ∃ efields2,
      strippedA = Json.obj outFields ∧
      lookupKey outFields "messages" = some (Json.arr msgs2) ∧
      msgs2.get ⟨0, hi2⟩ = Json.obj efields2 ∧
      hasKey efields2 "rendered" = false ∧
      ∀ k, k ≠ "rendered" → lookupKey efields2 k = lookupKey entryA k) :=
  ⟨rfl, rfl, rfl, by decide, rfl,
    claim_C1 fieldsA [Json.obj entryA] strippedA rfl rfl 0 Nat.one_pos
      entryA rfl (by decide) rfl⟩

/-- C5: processing preserves the relative order of `messages` exactly:
the output list has the same length, and the entry at every index is the
input entry at that index with only its `rendered` field removed — no
entry is added, removed or reordered. -/
theorem claim_C5 (fields : List (String × Json)) (msgs : List Json)
    (out : Json)
    (hrun : processFile (.obj fields) = some (some out))
    (hmsgs : lookupKey fields "messages" = some (.arr msgs)) :
    ∃ outFields msgs2,
      out = .obj outFields ∧
      lookupKey outFields "messages" = some (.arr msgs2) ∧
      msgs2.length = msgs.length ∧
      ∀ (i : Nat) (hi : i < msgs.length) (hi2 : i < msgs2.length),
        stripEntry (msgs.get ⟨i, hi⟩) = some (msgs2.get ⟨i, hi2⟩) := by
  obtain ⟨msgs2, hs, hout, hupd⟩ :=
    processFile_messages_inv fields msgs out hrun hmsgs
  exact ⟨updateKey fields "messages" (.arr msgs2), msgs2, hout, hupd,
    stripAll_length msgs msgs2 hs,
    fun i hi hi2 => stripAll_get msgs msgs2 hs i hi hi2⟩

/-- Witness for C5 at the spec scenario record `a.json`. -/
theorem claim_C5_witness :
    processFile (Json.obj fieldsA) = some (some strippedA) ∧
    lookupKey fieldsA "messages" = some (Json.arr [Json.obj entryA]) ∧
    (∃ outFields msgs2,
      strippedA = Json.obj outFields ∧
      lookupKey outFields "messages" = some (Json.arr msgs2) ∧
      msgs2.length = [Json.obj entryA].length ∧
      ∀ (i : Nat) (hi : i < [Json.obj entryA].length) (hi2 : i < msgs2.length),
        stripEntry ([Json.obj entryA].get ⟨i, hi⟩) =
          some (msgs2.get ⟨i, hi2⟩)) :=
  ⟨rfl, rfl, claim_C5 fieldsA [Json.obj entryA] strippedA rfl rfl⟩

/-- C6: a message entry without a `rendered` field is completely
unchanged by processing: the output entry at its index is the very same
object, same fields and same values. -/
theorem claim_C6 (fields : List (String × Json)) (msgs : List Json)
    (out : Json)
    (hrun : processFile (.obj fields) = some (some out))
    (hmsgs : lookupKey fields "messages" = some (.arr msgs))
    (i : Nat) (hi : i < msgs.length) (efields : List (String × Json))
    (hentry : msgs.get ⟨i, hi⟩ = .obj efields)
    (hrend : hasKey efields "rendered" = false) :
    ∃ outFields msgs2, ∃ (hi2 : i < msgs2.length),
      out = .obj outFields ∧
      lookupKey outFields "messages" = some (.arr msgs2) ∧
      msgs2.get ⟨i, hi2⟩ = .obj efields := by
  obtain ⟨msgs2, hs, hout, hupd⟩ :=
    processFile_messages_inv fields msgs out hrun hmsgs
  have hi2 : i < msgs2.length := (stripAll_length msgs msgs2 hs) ▸ hi
  have hget := stripAll_get msgs msgs2 hs i hi hi2
  rw [hentry, stripEntry_of_hasKey_false efields hrend] at hget
  exact ⟨updateKey fields "messages" (.arr msgs2), msgs2, hi2, hout, hupd,
    (Option.some.inj hget).symm⟩

/-- Witness for C6 at the already-stripped record (its single entry has
no `rendered` field). -/
theorem claim_C6_witness :
    processFile (Json.obj fieldsS) = some (some strippedA) ∧
    lookupKey fieldsS "messages" = some (Json.arr [Json.obj entryS]) ∧
    [Json.obj entryS].get ⟨0, Nat.one_pos⟩ = Json.obj entryS ∧
    hasKey entryS "rendered" = false ∧
    (∃ outFields msgs2, ∃ (hi2 : 0 < msgs2.length),
      strippedA = Json.obj outFields ∧
      lookupKey outFields "messages" = some (Json.arr msgs2) ∧
      msgs2.get ⟨0, hi2⟩ = Json.obj entryS) :=
  ⟨rfl, rfl, rfl, rfl,
    claim_C6 fieldsS [Json.obj entryS] strippedA rfl rfl 0 Nat.one_pos
      entryS rfl rfl⟩

/-- C10: processing a record with `messages` preserves every other
top-level field value-for-value, and within each entry only the direct
`rendered` field is removed: every other entry field keeps its exact
value, so any occurrence of the key `rendered` nested deeper inside a
value is left untouched. -/
theorem claim_C10 (fields : List (String × Json)) (msgs : List Json)
    (out : Json)
    (hrun : processFile (.obj fields) = some (some out))
    (hmsgs : lookupKey fields "messages" = some (.arr msgs)) :
    ∃ outFields msgs2,
      out = .obj outFields ∧
      (∀ k, k ≠ "messages" → lookupKey outFields k = lookupKey fields k) ∧
      lookupKey outFields "messages" = some (.arr msgs2) ∧
      ∀ (i : Nat) (hi : i < msgs.length) (hi2 : i < msgs2.length)
        (efields efields2 : List (String × Json)),
        msgs.get ⟨i, hi⟩ = .obj efields →
        msgs2.get ⟨i, hi2⟩ = .obj efields2 →
        ∀ k, k ≠ "rendered" → lookupKey efields2 k = lookupKey efields k := by
  obtain ⟨msgs2, hs, hout, hupd⟩ :=
    processFile_messages_inv fields msgs out hrun hmsgs
  refine ⟨updateKey fields "messages" (.arr msgs2), msgs2, hout,
    fun k hk => lookupKey_updateKey_ne fields _ _ k hk, hupd, ?_⟩
  intro i hi hi2 efields efields2 he he2
  have hget := stripAll_get msgs msgs2 hs i hi hi2
  rw [he, he2] at hget
  exact stripEntry_lookup_ne efields efields2 hget

/-- Witness for C10 at the spec scenario record `a.json`. -/
theorem claim_C10_witness :
    processFile (Json.obj fieldsA) = some (some strippedA) ∧
    lookupKey fieldsA "messages" = some (Json.arr [Json.obj entryA]) ∧
    (∃ outFields msgs2,
      strippedA = Json.obj outFields ∧
      (∀ k, k ≠ "messages" → lookupKey outFields k = lookupKey fieldsA k) ∧
      lookupKey outFields "messages" = some (Json.arr msgs2) ∧
      ∀ (i : Nat) (hi : i < [Json.obj entryA].length)
        (hi2 : i < msgs2.length)
        (efields efields2 : List (String × Json)),
        [Json.obj entryA].get ⟨i, hi⟩ = Json.obj efields →
        msgs2.get ⟨i, hi2⟩ = Json.obj efields2 →
        ∀ k, k ≠ "rendered" →
          lookupKey efields2 k = lookupKey efields k) :=
  ⟨rfl, rfl, claim_C10 fieldsA [Json.obj entryA] strippedA rfl rfl⟩

end ClearCache
